/-
Verification of a wallet batch balance-query tool.

Shallow embedding of `src/main.py`:

* `format_token_amount` — the amount formatter.  The Python code computes
  `amount / (10 ** decimals)` with true division (an exact-integer quotient
  correctly rounded to an IEEE-754 binary64 double), renders it with
  `f"{result:.{decimals}f}"` (fixed-point rendering of the exact double value,
  rounded half-to-even to `decimals` fractional digits), strips trailing `'0'`
  characters and then trailing `'.'` characters, and finally tests
  `float(formatted) == 0 and result != 0` to decide whether to substitute the
  `"< 0.…1"` marker.  All of this is modelled exactly over `ℚ`:
  doubles are represented by their exact rational values, `floatRound` performs
  binary64 round-to-nearest-even (subnormals and the overflow exception
  included), and Python strings are `List Char`.  Fallible steps (the
  `OverflowError` of true division, the `ValueError` of `float("")`) make the
  embedded formatter return `Option (List Char)`, `none` meaning an exception.
* `is_id_valid` — the pure selection filter.
* `WalletManager.update_wallet_with_address` — the ledger record update.
* `get_web3_connection` — the bounded-retry connection loop, with the network
  modelled as an oracle giving each attempt's outcome, and the observable
  actions (connection attempts, `time.sleep` calls) collected in an event
  trace.
* `generate_network_balance` — the batch balance-query run, with contract
  calls, address derivation and the random pacing delays modelled as oracles
  in a `ChainEnv`, and the per-wallet actions collected in an event trace.
-/
import Mathlib

set_option maxRecDepth 10000
set_option maxHeartbeats 1000000
set_option exponentiation.threshold 2000

namespace KeyGenerate

/- Batteries marks the `Rat` field operations `@[irreducible]`, which blocks
elaboration-time evaluation by `decide`; re-enable unfolding locally so that
concrete runs of the embedded code can be settled by `decide`. -/
attribute [local semireducible] Rat.mul Rat.inv Rat.add Rat.sub Rat.ofScientific

/-! ### Bit length and decimal digits (fuel-based, kernel-reducible) -/

/-- Number of binary digits of `n` (0 for 0), with explicit fuel. -/
def natBitsAux : ℕ → ℕ → ℕ
  | 0, _ => 0
  | f + 1, n => if n = 0 then 0 else natBitsAux f (n / 2) + 1

/-- Number of binary digits of `n`: the unique `b` with `2^(b-1) ≤ n < 2^b`
(and `0` for `n = 0`). -/
def natBits (n : ℕ) : ℕ := natBitsAux n n

/-- The ten decimal digit characters. -/
def digitList : List Char := ['0', '1', '2', '3', '4', '5', '6', '7', '8', '9']

/-- Character for the decimal digit `d`. -/
def digitChar (d : ℕ) : Char := digitList.getD d '0'

/-- Numeric value of a decimal digit character. -/
def charToDigit (c : Char) : ℕ := c.toNat - 48

/-- Decimal digit values of `n`, most significant first, with explicit fuel. -/
def natDigitsAux : ℕ → ℕ → List ℕ
  | 0, n => [n]
  | f + 1, n => if n < 10 then [n] else natDigitsAux f (n / 10) ++ [n % 10]

/-- Decimal digit values of `n`, most significant first. -/
def natDigitsVals (n : ℕ) : List ℕ := natDigitsAux n n

/-- Decimal representation of `n` as a character list (no sign, no padding). -/
def natDigitsStr (n : ℕ) : List Char := (natDigitsVals n).map digitChar

/-! ### Exact binary64 arithmetic over `ℚ` -/

/-- `2^e` as a rational, for an integer exponent. -/
def qpow2 (e : ℤ) : ℚ :=
  if 0 ≤ e then ((2 ^ e.toNat : ℕ) : ℚ) else (((2 ^ (-e).toNat : ℕ) : ℚ))⁻¹

/-- `10^n` as a rational. -/
def tenPow (n : ℕ) : ℚ := ((10 ^ n : ℕ) : ℚ)

/-- Round `p / q` to the nearest natural number, ties to even (`q ≠ 0`). -/
def roundHalfEvenNat (p q : ℕ) : ℕ :=
  let t := p / q
  let r := p % q
  if 2 * r < q then t
  else if q < 2 * r then t + 1
  else if t % 2 = 0 then t else t + 1

/-- Round a rational to the nearest integer, ties to even. -/
def roundHalfEvenQ (v : ℚ) : ℤ :=
  let f := ⌊v⌋
  let r := v - (f : ℚ)
  if r < 1 / 2 then f
  else if 1 / 2 < r then f + 1
  else if f % 2 = 0 then f else f + 1

/-- Is `p / q ≥ 2^k` (for naturals `p, q ≥ 1` and an integer `k`)? -/
def qge2pow (p q : ℕ) (k : ℤ) : Bool :=
  if 0 ≤ k then decide (q * 2 ^ k.toNat ≤ p) else decide (q ≤ p * 2 ^ (-k).toNat)

/-- The unique `k` with `2^(k-1) ≤ p/q < 2^k`, for `p, q ≥ 1`. -/
def ratBits (p q : ℕ) : ℤ :=
  let d : ℤ := (natBits p : ℤ) - (natBits q : ℤ)
  if qge2pow p q d then d + 1 else d

/-- Exact value of the IEEE-754 binary64 nearest-even rounding of the positive
rational `p / q`; `none` models the `OverflowError` raised when the result
would exceed the largest finite double. -/
def floatRoundPos (p q : ℕ) : Option ℚ :=
  let k := ratBits p q
  let e := max (k - 53) (-1074)
  let mant : ℕ :=
    if 0 ≤ e then roundHalfEvenNat p (q * 2 ^ e.toNat)
    else roundHalfEvenNat (p * 2 ^ (-e).toNat) q
  let value := (mant : ℚ) * qpow2 e
  if qpow2 1024 ≤ value then none else some value

/-- Exact value of the IEEE-754 binary64 nearest-even rounding of a rational;
`none` models `OverflowError`. -/
def floatRound (x : ℚ) : Option ℚ :=
  if x = 0 then some 0
  else if 0 < x then floatRoundPos x.num.natAbs x.den
  else (floatRoundPos x.num.natAbs x.den).map (fun y => -y)

/-- `float(s) == 0` for a decimal string with exact value `v`: binary64
nearest-even rounding sends `v` to zero exactly when `|v| ≤ 2^-1075`. -/
def pyFloatIsZero (v : ℚ) : Bool :=
  decide (-(1 : ℚ) ≤ v * qpow2 1075 ∧ v * qpow2 1075 ≤ 1)

/-! ### Python string helpers -/

/-- Python `s.rstrip('0')`. -/
def rstripZeros (l : List Char) : List Char :=
  (l.reverse.dropWhile (fun c => c == '0')).reverse

/-- Python `s.rstrip('.')`. -/
def rstripDot (l : List Char) : List Char :=
  (l.reverse.dropWhile (fun c => c == '.')).reverse

/-- Python `f"< 0.{'0' * (decimals - 1)}1"`. -/
def markerChars (decimals : ℕ) : List Char :=
  ['<', ' ', '0', '.'] ++ List.replicate (decimals - 1) '0' ++ ['1']

/-- Value of a list of decimal digit characters read left to right. -/
def digitsVal (l : List Char) : ℕ :=
  l.foldl (fun a c => a * 10 + charToDigit c) 0

/-- Parse an unsigned fixed-point decimal string (the sub-grammar of Python's
`float()` that the formatter's own output can exercise); `none` models
`ValueError`. -/
def parseUnsigned (l : List Char) : Option ℚ :=
  let ip := l.takeWhile Char.isDigit
  let rest := l.drop ip.length
  match rest with
  | [] => if ip.isEmpty then none else some ((digitsVal ip : ℕ) : ℚ)
  | c :: frac =>
    if c = '.' ∧ frac.all Char.isDigit ∧ ¬(ip.isEmpty ∧ frac.isEmpty) then
      some (((digitsVal ip : ℕ) : ℚ) + ((digitsVal frac : ℕ) : ℚ) / tenPow frac.length)
    else none

/-- Python `float(s)` restricted to the exact value of a fixed-point decimal
string; `none` models `ValueError`. -/
def parseFloat (l : List Char) : Option ℚ :=
  match l with
  | [] => none
  | c :: rest => if c = '-' then (parseUnsigned rest).map (fun q => -q) else parseUnsigned l

/-- Python `f"{v:.{nd}f}"` for a double of exact value `v`: fixed-point
rendering with exactly `nd` fractional digits, rounding the exact value
half-to-even. -/
def formatFixed (v : ℚ) (nd : ℕ) : List Char :=
  let n : ℤ := roundHalfEvenQ (v * tenPow nd)
  let na : ℕ := n.natAbs
  let sign : List Char := if n < 0 ∨ (n = 0 ∧ v < 0) then ['-'] else []
  if nd = 0 then
    sign ++ natDigitsStr na
  else
    let fracDigits := natDigitsStr (na % 10 ^ nd)
    sign ++ natDigitsStr (na / 10 ^ nd) ++ ['.'] ++
      (List.replicate (nd - fracDigits.length) '0' ++ fracDigits)

/-- `format_token_amount(amount, decimals)` from `src/main.py`:
`result = amount / (10 ** decimals)` (binary64 true division),
`formatted = f"{result:.{decimals}f}".rstrip('0').rstrip('.')`, and if
`float(formatted) == 0 and result != 0` the near-zero marker
`f"< 0.{'0' * (decimals - 1)}1"` is returned instead.  `none` models an
uncaught exception (`OverflowError` of the division or `ValueError` of
`float(formatted)`). -/
def format_token_amount (amount : ℤ) (decimals : ℕ) : Option (List Char) :=
  match floatRound ((amount : ℚ) / tenPow decimals) with
  | none => none
  | some result =>
    let formatted := rstripDot (rstripZeros (formatFixed result decimals))
    match parseFloat formatted with
    | none => none
    | some v =>
      some (if pyFloatIsZero v ∧ result ≠ 0 then markerChars decimals else formatted)

example : format_token_amount 0 18 = some ['0'] := by decide
example : format_token_amount 1 18 = some "0.000000000000000001".toList := by decide
example : format_token_amount 1500000000000000000 18 = some ['1', '.', '5'] := by decide
example : format_token_amount 100 0 = some ['1'] := by decide
example : format_token_amount 10 0 = some ['1'] := by decide
example : format_token_amount 1 330 = some ['0'] := by decide
example : format_token_amount 0 0 = none := by decide
example : format_token_amount 5 1 = some ['0', '.', '5'] := by decide
example : format_token_amount (-4) 2 = some "-0.04".toList := by decide

/-! ### The selection filter `is_id_valid` -/

/-- `is_id_valid(id, runeq, rungt, runlt)` from `src/main.py`: the range
condition (strict bounds, a zero bound meaning "unset") and the equality
condition (an empty list matching everything) are combined with `and`.
The Python `isinstance(runeq, list)` fallback branch for a non-list `runeq`
is dead in this typed embedding, where `runeq` is always a list. -/
def is_id_valid (id : ℤ) (runeq : List ℤ) (rungt runlt : ℤ) : Bool :=
  let range_match : Bool :=
    if rungt ≠ 0 ∧ runlt ≠ 0 then decide (rungt < id ∧ id < runlt)
    else if rungt ≠ 0 then decide (id > rungt)
    else if runlt ≠ 0 then decide (id < runlt)
    else true
  let equal_match : Bool :=
    if runeq.length = 0 then true else decide (id ∈ runeq)
  range_match && equal_match

/-! ### The wallet record update -/

/-- `WalletManager.update_wallet_with_address(wallets, private_key, address)`
from `src/main.py`: each record `wallet` with `wallet.startswith(private_key)`
is replaced by `f"{private_key},{address}"`; other records pass through. -/
def update_wallet_with_address :
    List (List Char) → List Char → List Char → List (List Char)
  | [], _, _ => []
  | w :: ws, private_key, address =>
    (if private_key.isPrefixOf w then private_key ++ [','] ++ address else w) ::
      update_wallet_with_address ws private_key address

/-! ### The connection loop and the batch balance-query run -/

/-- Outcome of one connection attempt `Web3(Web3.HTTPProvider(url))` /
`web3_obj.is_connected()` against the endpoint: the liveness check returns
`True`, returns `False`, or a transport exception is raised (caught by the
loop). -/
inductive ConnAttempt
  | connected
  | notConnected
  | raisesExn
deriving DecidableEq

/-- Observable actions of a balance-query run, in execution order.  Sleep
durations (the fixed retry cooldown `time.sleep(2)` and the random pacing
delay `time.sleep(random.uniform(1, 3))`) are recorded in the event. -/
inductive RunEvent
  | connTry (attempt : ℕ)
  | connSleep (secs : ℕ)
  | symbolCall
  | decimalsCall
  | deriveAddr (idx : ℕ)
  | nativeCall (idx : ℕ)
  | tokenCall (idx : ℕ)
  | logBalance (idx : ℕ)
  | logWalletError (idx : ℕ)
  | paceSleep (idx : ℕ) (delay : ℚ)
deriving DecidableEq

/-- The loop body of `get_web3_connection`, structurally recursive on the
number of remaining attempts.  The connection handle is modelled as `Unit`
(all its later uses are modelled as oracles on addresses). -/
def connLoop (env : ℕ → ConnAttempt) (max_retries : ℕ) :
    ℕ → ℕ → Option Unit × List RunEvent
  | 0, _ => (none, [])
  | rem + 1, attempt =>
    match env attempt with
    | .connected => (some (), [.connTry attempt])
    | _ =>
      let sleeps : List RunEvent :=
        if attempt < max_retries - 1 then [.connSleep 2] else []
      let rest := connLoop env max_retries rem (attempt + 1)
      (rest.1, .connTry attempt :: (sleeps ++ rest.2))

/-- `get_web3_connection(url, max_retries)` from `src/main.py`: up to
`max_retries` attempts, a `time.sleep(2)` cooldown after every failed attempt
except the last, `None` on exhaustion.  A transport exception during an
attempt is caught and treated as a failed attempt. -/
def get_web3_connection (env : ℕ → ConnAttempt) (max_retries : ℕ := 3) :
    Option Unit × List RunEvent :=
  connLoop env max_retries max_retries 0

/-- Network profile data that flows into the modelled computation (the RPC
url, native symbol/name and token contract address flow only into I/O and
are omitted). -/
structure NetworkConfig where
  native_decimals : ℕ
deriving DecidableEq

/-- Oracles for everything `generate_network_balance` observes from the
outside world: connection attempt outcomes, the two token metadata calls,
address derivation (`get_address_by_key`, `None` on failure), the two
per-address balance calls (`none` modelling a raised exception), and the
successive `random.uniform(1, 3)` pacing draws (indexed by wallet index). -/
structure ChainEnv where
  connAttempts : ℕ → ConnAttempt
  tokenSymbol : Option (List Char)
  tokenDecimals : Option ℕ
  deriveAddress : List Char → Option (List Char)
  nativeBalance : List Char → Option ℤ
  tokenBalance : List Char → Option ℤ
  pacingDelay : ℕ → ℚ

/-- Final outcome of a `generate_network_balance` run. -/
inductive RunOutcome
  | noWallets
  | unsupportedNetwork
  | connectionFailure
  | metadataFailure
  | done (count : ℕ)
deriving DecidableEq

/-- `parts = wallet_data.split(','); private_key = parts[0]`: the stored
private key is everything before the first comma. -/
def walletKey (w : List Char) : List Char := w.takeWhile (fun c => c ≠ ',')

/-- The `try` block of one per-wallet iteration: query the native balance,
format it, query the token balance, format it, then log the result line; any
raised exception is caught and logged as a wallet error. -/
def walletTryBlock (env : ChainEnv) (cfg : NetworkConfig) (tok_decimals : ℕ)
    (idx : ℕ) (address : List Char) : List RunEvent :=
  match env.nativeBalance address with
  | none => [.nativeCall idx, .logWalletError idx]
  | some balance_native_raw =>
    match format_token_amount balance_native_raw cfg.native_decimals with
    | none => [.nativeCall idx, .logWalletError idx]
    | some _balance_native =>
      match env.tokenBalance address with
      | none => [.nativeCall idx, .tokenCall idx, .logWalletError idx]
      | some balance_token_raw =>
        match format_token_amount balance_token_raw tok_decimals with
        | none => [.nativeCall idx, .tokenCall idx, .logWalletError idx]
        | some _balance_token => [.nativeCall idx, .tokenCall idx, .logBalance idx]

/-- One iteration of the per-wallet loop of `generate_network_balance`, for
the record `w` at 1-based index `idx`: filter, count, split off the private
key, derive the address (`continue` on failure skips the pacing sleep),
run the `try` block (any failure is logged and falls through to the pacing
sleep), then `time.sleep(random.uniform(1, 3))`.  Returns the increment of
`calc_count` and the events of this iteration. -/
def walletStep (env : ChainEnv) (cfg : NetworkConfig) (tok_decimals : ℕ)
    (runeq : List ℤ) (rungt runlt : ℤ) (idx : ℕ) (w : List Char) :
    ℕ × List RunEvent :=
  if ¬ is_id_valid (idx : ℤ) runeq rungt runlt then (0, [])
  else
    match env.deriveAddress (walletKey w) with
    | none => (1, [.deriveAddr idx, .logWalletError idx])
    | some address =>
      (1, [.deriveAddr idx] ++ walletTryBlock env cfg tok_decimals idx address ++
        [.paceSleep idx (env.pacingDelay idx)])

/-- The per-wallet loop of `generate_network_balance`, structurally recursive
on the record list, carrying the 1-based index. -/
def walletLoop (env : ChainEnv) (cfg : NetworkConfig) (tok_decimals : ℕ)
    (runeq : List ℤ) (rungt runlt : ℤ) :
    List (List Char) → ℕ → ℕ × List RunEvent
  | [], _ => (0, [])
  | w :: ws, idx =>
    let step := walletStep env cfg tok_decimals runeq rungt runlt idx w
    let rest := walletLoop env cfg tok_decimals runeq rungt runlt ws (idx + 1)
    (step.1 + rest.1, step.2 ++ rest.2)

/-- `generate_network_balance(name, runeq, rungt, runlt, network)` from
`src/main.py`, after the ledger has been loaded into `wallets`:
empty-ledger early return, network-profile lookup (`config?` is the result of
the `NETWORK_CONFIG` lookup), connection with 3 retries (fatal on failure),
the two token metadata calls inside one `try` (fatal on failure), then the
per-wallet loop, and finally the summary logging `calc_count`. -/
def generate_network_balance (env : ChainEnv) (config? : Option NetworkConfig)
    (wallets : List (List Char)) (runeq : List ℤ) (rungt runlt : ℤ) :
    RunOutcome × List RunEvent :=
  if wallets.isEmpty then (.noWallets, [])
  else
    match config? with
    | none => (.unsupportedNetwork, [])
    | some cfg =>
      match get_web3_connection env.connAttempts 3 with
      | (none, connEvents) => (.connectionFailure, connEvents)
      | (some _web3_obj, connEvents) =>
        match env.tokenSymbol with
        | none => (.metadataFailure, connEvents ++ [.symbolCall])
        | some _token_symbol =>
          match env.tokenDecimals with
          | none => (.metadataFailure, connEvents ++ [.symbolCall, .decimalsCall])
          | some token_decimals =>
            let loop := walletLoop env cfg token_decimals runeq rungt runlt wallets 1
            (.done loop.1, connEvents ++ [.symbolCall, .decimalsCall] ++ loop.2)

/-! ### Spec-side statements of the selection criteria invariant -/

/-- The spec's range condition: strict bounds, a zero bound meaning unset. -/
def rangeCond (i gt lt : ℤ) : Prop :=
  if gt ≠ 0 ∧ lt ≠ 0 then gt < i ∧ i < lt
  else if gt ≠ 0 then gt < i
  else if lt ≠ 0 then i < lt
  else True

/-- The spec's equality condition: an empty allow-set matches everything. -/
def equalCond (i : ℤ) (eqs : List ℤ) : Prop := eqs = [] ∨ i ∈ eqs

/-! ### C3: the selection filter -/

/-- C3.  The selection filter's result equals (range condition) AND (equality
condition); with an empty allow-set and both bounds non-zero and ordered it
holds iff `gt < i < lt` strictly; with one non-zero bound only that comparison
applies; with both bounds zero the range condition is vacuously true. -/
theorem c3_filter_invariant :
    (∀ (i : ℤ) (eqs : List ℤ) (gt lt : ℤ),
      is_id_valid i eqs gt lt = true ↔ rangeCond i gt lt ∧ equalCond i eqs)
    ∧ (∀ (i gt lt : ℤ), gt ≠ 0 → lt ≠ 0 → gt < lt →
      (is_id_valid i [] gt lt = true ↔ gt < i ∧ i < lt))
    ∧ (∀ (i gt : ℤ), gt ≠ 0 → (is_id_valid i [] gt 0 = true ↔ gt < i))
    ∧ (∀ (i lt : ℤ), lt ≠ 0 → (is_id_valid i [] 0 lt = true ↔ i < lt))
    ∧ (∀ (i : ℤ) (eqs : List ℤ), is_id_valid i eqs 0 0 = true ↔ equalCond i eqs) := by
  have main : ∀ (i : ℤ) (eqs : List ℤ) (gt lt : ℤ),
      is_id_valid i eqs gt lt = true ↔ rangeCond i gt lt ∧ equalCond i eqs := by
    intro i eqs gt lt
    by_cases h1 : gt ≠ 0 ∧ lt ≠ 0 <;> by_cases h2 : gt ≠ 0 <;> by_cases h3 : lt ≠ 0 <;>
      by_cases h4 : eqs = [] <;>
      simp [is_id_valid, rangeCond, equalCond, h1, h2, h3, h4, List.length_eq_zero]
  refine ⟨main, ?_, ?_, ?_, ?_⟩
  · intro i gt lt hgt hlt _
    rw [main]
    simp [rangeCond, equalCond, hgt, hlt]
  · intro i gt hgt
    rw [main]
    simp [rangeCond, equalCond, hgt]
  · intro i lt hlt
    rw [main]
    simp [rangeCond, equalCond, hlt]
  · intro i eqs
    rw [main]
    simp [rangeCond]

/-- Witness for C3 at concrete inputs. -/
theorem c3_filter_invariant_witness : is_id_valid 5 [] 2 9 = true :=
  (c3_filter_invariant.2.1 5 2 9 (by decide) (by decide) (by decide)).mpr (by decide)

/-! ### C2: the wallet record update rewrites every matching record -/

/-- C2 counterexample.  With two records both equal to the stored key `"k"`,
the claim says only the first is rewritten and the second passes through
unchanged; the code rewrites both. -/
theorem c2_counterexample :
    update_wallet_with_address [['k'], ['k']] ['k'] ['a'] =
      [['k', ',', 'a'], ['k', ',', 'a']]
    ∧ (['k', ',', 'a'] : List Char) ≠ ['k'] := by
  exact ⟨by decide, by decide⟩

/-- `p` is a prefix of `p ++ t`. -/
theorem isPrefixOf_append_self (p t : List Char) : p.isPrefixOf (p ++ t) = true := by
  induction p with
  | nil => simp [List.isPrefixOf]
  | cons a as ih => simp [List.isPrefixOf, ih]

/-- C2 amended.  `updateWithAddress` rewrites every record whose stored
private key matches (prefix check), not only the first; all records keep
their positions and non-matching records pass through unchanged. -/
theorem c2_update_rewrites_all (wallets : List (List Char))
    (private_key address : List Char) :
    (update_wallet_with_address wallets private_key address).length = wallets.length
    ∧ ∀ j, j < wallets.length →
      (update_wallet_with_address wallets private_key address).getD j [] =
        if private_key.isPrefixOf (wallets.getD j [])
        then private_key ++ [','] ++ address
        else wallets.getD j [] := by
  induction wallets with
  | nil => exact ⟨rfl, by intro j hj; cases hj⟩
  | cons w ws ih =>
    refine ⟨by simpa [update_wallet_with_address] using ih.1, ?_⟩
    intro j hj
    cases j with
    | zero => simp [update_wallet_with_address]
    | succ j' =>
      have := ih.2 j' (by simpa using hj)
      simpa [update_wallet_with_address] using this

/-- Witness for C2's amended claim at a concrete input. -/
theorem c2_update_rewrites_all_witness :
    (update_wallet_with_address [['k'], ['x']] ['k'] ['a']).getD 1 [] =
      if (['k'] : List Char).isPrefixOf ([['k'], ['x']].getD 1 [])
      then ['k'] ++ [','] ++ ['a']
      else [['k'], ['x']].getD 1 [] :=
  (c2_update_rewrites_all [['k'], ['x']] ['k'] ['a']).2 1 (by decide)

/-! ### C7: idempotence of the wallet record update -/

/-- C7.  Applying `updateWithAddress` twice with the same key and address
yields the same result as applying it once. -/
theorem c7_update_idempotent (wallets : List (List Char))
    (private_key address : List Char) :
    update_wallet_with_address
        (update_wallet_with_address wallets private_key address) private_key address =
      update_wallet_with_address wallets private_key address := by
  induction wallets with
  | nil => rfl
  | cons w ws ih =>
    by_cases h : private_key.isPrefixOf w = true
    · simp [update_wallet_with_address, h, isPrefixOf_append_self, ih]
    · simp [update_wallet_with_address, h, ih]

/-! ### Connection-loop lemmas -/

/-- Unfolding of one failed connection attempt. -/
theorem connLoop_fail_step (env : ℕ → ConnAttempt) (mr rem att : ℕ)
    (h : env att ≠ .connected) :
    connLoop env mr (rem + 1) att =
      ((connLoop env mr rem (att + 1)).1,
        .connTry att ::
          ((if att < mr - 1 then [RunEvent.connSleep 2] else []) ++
            (connLoop env mr rem (att + 1)).2)) := by
  cases henv : env att with
  | connected => exact absurd henv h
  | notConnected => simp [connLoop, henv]
  | raisesExn => simp [connLoop, henv]

/-- Connection events are only attempts and retry cooldowns. -/
theorem connLoop_events_shape (env : ℕ → ConnAttempt) (mr : ℕ) :
    ∀ rem att, ∀ e ∈ (connLoop env mr rem att).2,
      (∃ i, e = RunEvent.connTry i) ∨ e = RunEvent.connSleep 2 := by
  intro rem
  induction rem with
  | zero => intro att e he; simp [connLoop] at he
  | succ r ih =>
    intro att e he
    cases henv : env att with
    | connected =>
      simp only [connLoop, henv, List.mem_singleton] at he
      exact Or.inl ⟨att, he⟩
    | notConnected =>
      rw [connLoop_fail_step env mr r att (by simp [henv])] at he
      rcases List.mem_cons.mp he with rfl | he2
      · exact Or.inl ⟨att, rfl⟩
      rcases List.mem_append.mp he2 with h3 | h4
      · split at h3
        · exact Or.inr (List.mem_singleton.mp h3)
        · simp at h3
      · exact ih (att + 1) e h4
    | raisesExn =>
      rw [connLoop_fail_step env mr r att (by simp [henv])] at he
      rcases List.mem_cons.mp he with rfl | he2
      · exact Or.inl ⟨att, rfl⟩
      rcases List.mem_append.mp he2 with h3 | h4
      · split at h3
        · exact Or.inr (List.mem_singleton.mp h3)
        · simp at h3
      · exact ih (att + 1) e h4

/-- Connection events of `get_web3_connection` are only attempts and
cooldowns. -/
theorem get_web3_connection_events_shape (env : ℕ → ConnAttempt) (mr : ℕ) :
    ∀ e ∈ (get_web3_connection env mr).2,
      (∃ i, e = RunEvent.connTry i) ∨ e = RunEvent.connSleep 2 :=
  connLoop_events_shape env mr mr 0

/-! ### C4: retry exhaustion on a dead endpoint -/

/-- C4.  If every connection attempt fails, `get_web3_connection` with 3
retries performs exactly attempts 0, 1, 2 with the 2-unit cooldown between
consecutive attempts and not after the last, and returns no connection; the
balance run then aborts with a connection failure and performs no balance
calls. -/
theorem c4_retry_exhaustion (env : ChainEnv) (cfg : NetworkConfig)
    (wallets : List (List Char)) (runeq : List ℤ) (rungt runlt : ℤ)
    (hfail : ∀ i, i < 3 → env.connAttempts i ≠ ConnAttempt.connected) :
    get_web3_connection env.connAttempts 3 =
      (none, [.connTry 0, .connSleep 2, .connTry 1, .connSleep 2, .connTry 2])
    ∧ (wallets ≠ [] →
      generate_network_balance env (some cfg) wallets runeq rungt runlt =
        (.connectionFailure,
          [.connTry 0, .connSleep 2, .connTry 1, .connSleep 2, .connTry 2]))
    ∧ ∀ e ∈ (generate_network_balance env (some cfg) wallets runeq rungt runlt).2,
        ∀ idx, e ≠ RunEvent.nativeCall idx ∧ e ≠ RunEvent.tokenCall idx := by
  have e0 := hfail 0 (by omega)
  have e1 := hfail 1 (by omega)
  have e2 := hfail 2 (by omega)
  have key : get_web3_connection env.connAttempts 3 =
      (none, [.connTry 0, .connSleep 2, .connTry 1, .connSleep 2, .connTry 2]) := by
    unfold get_web3_connection
    rw [connLoop_fail_step env.connAttempts 3 2 0 e0,
        connLoop_fail_step env.connAttempts 3 1 1 e1,
        connLoop_fail_step env.connAttempts 3 0 2 e2]
    norm_num [connLoop]
  have run_eq : wallets ≠ [] →
      generate_network_balance env (some cfg) wallets runeq rungt runlt =
        (.connectionFailure,
          [.connTry 0, .connSleep 2, .connTry 1, .connSleep 2, .connTry 2]) := by
    intro hne
    have hempty : wallets.isEmpty = false := by simpa [List.isEmpty_iff] using hne
    unfold generate_network_balance
    rw [hempty, key]
    rfl
  refine ⟨key, run_eq, ?_⟩
  intro e he idx
  by_cases hnil : wallets = []
  · subst hnil
    simp [generate_network_balance] at he
  · rw [run_eq hnil] at he
    simp only [List.mem_cons, List.not_mem_nil, or_false] at he
    rcases he with rfl | rfl | rfl | rfl | rfl <;> exact ⟨by simp, by simp⟩

/-- A dead-endpoint environment for concrete runs. -/
def envDown : ChainEnv where
  connAttempts := fun _ => .notConnected
  tokenSymbol := some ['T']
  tokenDecimals := some 6
  deriveAddress := fun _ => none
  nativeBalance := fun _ => none
  tokenBalance := fun _ => none
  pacingDelay := fun _ => 2

/-- Witness for C4 on a concrete dead endpoint. -/
theorem c4_retry_exhaustion_witness :
    get_web3_connection envDown.connAttempts 3 =
      (none, [.connTry 0, .connSleep 2, .connTry 1, .connSleep 2, .connTry 2])
    ∧ generate_network_balance envDown (some ⟨18⟩) [['k']] [] 0 0 =
      (.connectionFailure,
        [.connTry 0, .connSleep 2, .connTry 1, .connSleep 2, .connTry 2]) :=
  ⟨(c4_retry_exhaustion envDown ⟨18⟩ [['k']] [] 0 0 (by decide)).1,
   (c4_retry_exhaustion envDown ⟨18⟩ [['k']] [] 0 0 (by decide)).2.1 (by decide)⟩

/-! ### Run unfolding lemmas -/

/-- Is an event part of the per-wallet processing (as opposed to connection
establishment or metadata resolution)? -/
def RunEvent.isPerWallet : RunEvent → Bool
  | .connTry _ => false
  | .connSleep _ => false
  | .symbolCall => false
  | .decimalsCall => false
  | _ => true

/-- A run whose connection fails aborts with the connection events only. -/
theorem generate_connFail_eq (env : ChainEnv) (cfg : NetworkConfig)
    (wallets : List (List Char)) (runeq : List ℤ) (rungt runlt : ℤ)
    (hne : wallets ≠ [])
    (hconn : (get_web3_connection env.connAttempts 3).1 = none) :
    generate_network_balance env (some cfg) wallets runeq rungt runlt =
      (.connectionFailure, (get_web3_connection env.connAttempts 3).2) := by
  have hempty : wallets.isEmpty = false := by simpa [List.isEmpty_iff] using hne
  rcases hg : get_web3_connection env.connAttempts 3 with ⟨o, evs⟩
  rw [hg] at hconn
  simp only at hconn
  subst hconn
  unfold generate_network_balance
  rw [hempty, hg]
  rfl

/-- A run whose symbol call fails aborts with metadata failure. -/
theorem generate_symFail_eq (env : ChainEnv) (cfg : NetworkConfig)
    (wallets : List (List Char)) (runeq : List ℤ) (rungt runlt : ℤ)
    (hne : wallets ≠ [])
    (hconn : (get_web3_connection env.connAttempts 3).1 = some ())
    (hsym : env.tokenSymbol = none) :
    generate_network_balance env (some cfg) wallets runeq rungt runlt =
      (.metadataFailure,
        (get_web3_connection env.connAttempts 3).2 ++ [.symbolCall]) := by
  have hempty : wallets.isEmpty = false := by simpa [List.isEmpty_iff] using hne
  rcases hg : get_web3_connection env.connAttempts 3 with ⟨o, evs⟩
  rw [hg] at hconn
  simp only at hconn
  subst hconn
  unfold generate_network_balance
  rw [hempty, hg, hsym]
  rfl

/-- A run whose decimals call fails aborts with metadata failure. -/
theorem generate_decFail_eq (env : ChainEnv) (cfg : NetworkConfig)
    (wallets : List (List Char)) (runeq : List ℤ) (rungt runlt : ℤ) (sym : List Char)
    (hne : wallets ≠ [])
    (hconn : (get_web3_connection env.connAttempts 3).1 = some ())
    (hsym : env.tokenSymbol = some sym)
    (hdec : env.tokenDecimals = none) :
    generate_network_balance env (some cfg) wallets runeq rungt runlt =
      (.metadataFailure,
        (get_web3_connection env.connAttempts 3).2 ++
          [.symbolCall, .decimalsCall]) := by
  have hempty : wallets.isEmpty = false := by simpa [List.isEmpty_iff] using hne
  rcases hg : get_web3_connection env.connAttempts 3 with ⟨o, evs⟩
  rw [hg] at hconn
  simp only at hconn
  subst hconn
  unfold generate_network_balance
  rw [hempty, hg, hsym, hdec]
  rfl

/-- A run with connection and metadata established runs the per-wallet loop
and reports its count. -/
theorem generate_success_eq (env : ChainEnv) (cfg : NetworkConfig)
    (wallets : List (List Char)) (runeq : List ℤ) (rungt runlt : ℤ)
    (sym : List Char) (td : ℕ)
    (hne : wallets ≠ [])
    (hconn : (get_web3_connection env.connAttempts 3).1 = some ())
    (hsym : env.tokenSymbol = some sym)
    (hdec : env.tokenDecimals = some td) :
    generate_network_balance env (some cfg) wallets runeq rungt runlt =
      (.done (walletLoop env cfg td runeq rungt runlt wallets 1).1,
        (get_web3_connection env.connAttempts 3).2 ++
          [.symbolCall, .decimalsCall] ++
          (walletLoop env cfg td runeq rungt runlt wallets 1).2) := by
  have hempty : wallets.isEmpty = false := by simpa [List.isEmpty_iff] using hne
  rcases hg : get_web3_connection env.connAttempts 3 with ⟨o, evs⟩
  rw [hg] at hconn
  simp only at hconn
  subst hconn
  unfold generate_network_balance
  rw [hempty, hg, hsym, hdec]
  rfl

/-! ### Per-wallet loop lemmas -/

/-- A record filtered out contributes nothing. -/
theorem walletStep_skip (env : ChainEnv) (cfg : NetworkConfig) (td : ℕ)
    (runeq : List ℤ) (rungt runlt : ℤ) (idx : ℕ) (w : List Char)
    (h : is_id_valid (idx : ℤ) runeq rungt runlt = false) :
    walletStep env cfg td runeq rungt runlt idx w = (0, []) := by
  simp [walletStep, h]

/-- A matching record whose derivation fails is logged and skipped, with no
pacing sleep. -/
theorem walletStep_pass_none (env : ChainEnv) (cfg : NetworkConfig) (td : ℕ)
    (runeq : List ℤ) (rungt runlt : ℤ) (idx : ℕ) (w : List Char)
    (h : is_id_valid (idx : ℤ) runeq rungt runlt = true)
    (hd : env.deriveAddress (walletKey w) = none) :
    walletStep env cfg td runeq rungt runlt idx w =
      (1, [.deriveAddr idx, .logWalletError idx]) := by
  simp [walletStep, h, hd]

/-- A matching record with a derived address runs the try block and then the
pacing sleep. -/
theorem walletStep_pass_some (env : ChainEnv) (cfg : NetworkConfig) (td : ℕ)
    (runeq : List ℤ) (rungt runlt : ℤ) (idx : ℕ) (w : List Char)
    (address : List Char)
    (h : is_id_valid (idx : ℤ) runeq rungt runlt = true)
    (hd : env.deriveAddress (walletKey w) = some address) :
    walletStep env cfg td runeq rungt runlt idx w =
      (1, [.deriveAddr idx] ++ walletTryBlock env cfg td idx address ++
        [.paceSleep idx (env.pacingDelay idx)]) := by
  simp [walletStep, h, hd]

/-- Events of the try block are balance calls and result logging only. -/
theorem walletTryBlock_shape (env : ChainEnv) (cfg : NetworkConfig) (td : ℕ)
    (idx : ℕ) (address : List Char) :
    ∀ e ∈ walletTryBlock env cfg td idx address,
      e = RunEvent.nativeCall idx ∨ e = RunEvent.tokenCall idx ∨
        e = RunEvent.logBalance idx ∨ e = RunEvent.logWalletError idx := by
  intro e he
  unfold walletTryBlock at he
  split at he
  · simp at he; tauto
  · split at he
    · simp at he; tauto
    · split at he
      · simp at he; tauto
      · split at he
        · simp at he; tauto
        · simp at he; tauto

/-- The per-record count increment is 1 exactly on filter-matching records. -/
theorem walletStep_count (env : ChainEnv) (cfg : NetworkConfig) (td : ℕ)
    (runeq : List ℤ) (rungt runlt : ℤ) (idx : ℕ) (w : List Char) :
    (walletStep env cfg td runeq rungt runlt idx w).1 =
      if is_id_valid (idx : ℤ) runeq rungt runlt = true then 1 else 0 := by
  by_cases h : is_id_valid (idx : ℤ) runeq rungt runlt = true
  · cases hd : env.deriveAddress (walletKey w) with
    | none => rw [walletStep_pass_none env cfg td runeq rungt runlt idx w h hd, if_pos h]
    | some a => rw [walletStep_pass_some env cfg td runeq rungt runlt idx w a h hd, if_pos h]
  · rw [walletStep_skip env cfg td runeq rungt runlt idx w (by simpa using h), if_neg h]

/-- Membership of a derivation event in one step. -/
theorem walletStep_mem_derive (env : ChainEnv) (cfg : NetworkConfig) (td : ℕ)
    (runeq : List ℤ) (rungt runlt : ℤ) (idx : ℕ) (w : List Char) (j : ℕ) :
    RunEvent.deriveAddr j ∈ (walletStep env cfg td runeq rungt runlt idx w).2 ↔
      j = idx ∧ is_id_valid (idx : ℤ) runeq rungt runlt = true := by
  by_cases h : is_id_valid (idx : ℤ) runeq rungt runlt = true
  · cases hd : env.deriveAddress (walletKey w) with
    | none =>
      rw [walletStep_pass_none env cfg td runeq rungt runlt idx w h hd]
      simp [h]
    | some a =>
      rw [walletStep_pass_some env cfg td runeq rungt runlt idx w a h hd]
      simp only [List.append_assoc, List.mem_append, List.mem_singleton]
      constructor
      · rintro (hm | hm | hm)
        · exact ⟨by simpa using hm, h⟩
        · rcases walletTryBlock_shape env cfg td idx a _ hm with h3 | h3 | h3 | h3 <;>
            simp at h3
        · simp at hm
      · rintro ⟨rfl, _⟩
        exact Or.inl rfl
  · rw [walletStep_skip env cfg td runeq rungt runlt idx w (by simpa using h)]
    simp
    intro hj
    subst hj
    simpa using h

/-- The loop count is the number of filter-matching 1-based indices. -/
theorem walletLoop_count (env : ChainEnv) (cfg : NetworkConfig) (td : ℕ)
    (runeq : List ℤ) (rungt runlt : ℤ) :
    ∀ (ws : List (List Char)) (i : ℕ),
      (walletLoop env cfg td runeq rungt runlt ws i).1 =
        (List.range' i ws.length).countP
          (fun idx => is_id_valid (idx : ℤ) runeq rungt runlt) := by
  intro ws
  induction ws with
  | nil => intro i; simp [walletLoop]
  | cons w ws ih =>
    intro i
    simp only [walletLoop, List.length_cons, List.range'_succ, List.countP_cons,
      walletStep_count, ih]
    by_cases h : is_id_valid (i : ℤ) runeq rungt runlt = true
    all_goals simp [h]
    all_goals omega

/-- Membership of a derivation event in the loop events. -/
theorem walletLoop_mem_derive (env : ChainEnv) (cfg : NetworkConfig) (td : ℕ)
    (runeq : List ℤ) (rungt runlt : ℤ) :
    ∀ (ws : List (List Char)) (i j : ℕ),
      RunEvent.deriveAddr j ∈ (walletLoop env cfg td runeq rungt runlt ws i).2 ↔
        (i ≤ j ∧ j < i + ws.length ∧ is_id_valid (j : ℤ) runeq rungt runlt = true) := by
  intro ws
  induction ws with
  | nil =>
    intro i j
    simp [walletLoop]
    omega
  | cons w ws ih =>
    intro i j
    simp only [walletLoop, List.mem_append, walletStep_mem_derive, ih, List.length_cons]
    constructor
    · rintro (⟨rfl, hp⟩ | ⟨h1, h2, hp⟩)
      · exact ⟨le_refl _, by omega, hp⟩
      · exact ⟨by omega, by omega, hp⟩
    · rintro ⟨h1, h2, hp⟩
      by_cases hij : j = i
      · subst hij; exact Or.inl ⟨rfl, hp⟩
      · exact Or.inr ⟨by omega, by omega, hp⟩

/-! ### C5: failure semantics of the batch run -/

/-- C5.  A connection failure or a metadata failure ends the run before any
per-wallet processing (no per-wallet event occurs, in particular no balance
call); once connection and metadata are established, the run always completes
with a summary, and every filter-matching record is processed (its derivation
step occurs) no matter how any per-wallet derivation or balance query
fails. -/
theorem c5_failure_semantics (env : ChainEnv) (cfg : NetworkConfig)
    (wallets : List (List Char)) (runeq : List ℤ) (rungt runlt : ℤ)
    (hne : wallets ≠ []) :
    ((get_web3_connection env.connAttempts 3).1 = none →
      (generate_network_balance env (some cfg) wallets runeq rungt runlt).1 =
        RunOutcome.connectionFailure ∧
      ∀ e ∈ (generate_network_balance env (some cfg) wallets runeq rungt runlt).2,
        e.isPerWallet = false)
    ∧ ((get_web3_connection env.connAttempts 3).1 = some () →
      (env.tokenSymbol = none ∨ env.tokenDecimals = none) →
      (generate_network_balance env (some cfg) wallets runeq rungt runlt).1 =
        RunOutcome.metadataFailure ∧
      ∀ e ∈ (generate_network_balance env (some cfg) wallets runeq rungt runlt).2,
        e.isPerWallet = false)
    ∧ (∀ (sym : List Char) (td : ℕ),
      (get_web3_connection env.connAttempts 3).1 = some () →
      env.tokenSymbol = some sym → env.tokenDecimals = some td →
      (∃ c, (generate_network_balance env (some cfg) wallets runeq rungt runlt).1 =
        RunOutcome.done c) ∧
      ∀ idx, 1 ≤ idx → idx ≤ wallets.length →
        (is_id_valid (idx : ℤ) runeq rungt runlt = true ↔
          RunEvent.deriveAddr idx ∈
            (generate_network_balance env (some cfg) wallets runeq rungt runlt).2)) := by
  refine ⟨?_, ?_, ?_⟩
  · intro hconn
    rw [generate_connFail_eq env cfg wallets runeq rungt runlt hne hconn]
    refine ⟨rfl, ?_⟩
    intro e he
    rcases get_web3_connection_events_shape env.connAttempts 3 e he with ⟨i, rfl⟩ | rfl <;> rfl
  · intro hconn hmeta
    have connShape := get_web3_connection_events_shape env.connAttempts 3
    rcases hmeta with hsym | hdec
    · rw [generate_symFail_eq env cfg wallets runeq rungt runlt hne hconn hsym]
      refine ⟨rfl, ?_⟩
      intro e he
      rcases List.mem_append.mp he with h1 | h1
      · rcases connShape e h1 with ⟨i, rfl⟩ | rfl <;> rfl
      · rw [List.mem_singleton.mp h1]; rfl
    · rcases hsym : env.tokenSymbol with _ | sym
      · rw [generate_symFail_eq env cfg wallets runeq rungt runlt hne hconn hsym]
        refine ⟨rfl, ?_⟩
        intro e he
        rcases List.mem_append.mp he with h1 | h1
        · rcases connShape e h1 with ⟨i, rfl⟩ | rfl <;> rfl
        · rw [List.mem_singleton.mp h1]; rfl
      · rw [generate_decFail_eq env cfg wallets runeq rungt runlt sym hne hconn hsym hdec]
        refine ⟨rfl, ?_⟩
        intro e he
        rcases List.mem_append.mp he with h1 | h1
        · rcases connShape e h1 with ⟨i, rfl⟩ | rfl <;> rfl
        · rcases List.mem_cons.mp h1 with rfl | h2
          · rfl
          · rw [List.mem_singleton.mp h2]; rfl
  · intro sym td hconn hsym hdec
    rw [generate_success_eq env cfg wallets runeq rungt runlt sym td hne hconn hsym hdec]
    refine ⟨⟨_, rfl⟩, ?_⟩
    intro idx h1 h2
    simp only [List.append_assoc, List.mem_append]
    constructor
    · intro hp
      exact Or.inr (Or.inr ((walletLoop_mem_derive env cfg td runeq rungt runlt
        wallets 1 idx).mpr ⟨h1, by omega, hp⟩))
    · rintro (hm | hm)
      · rcases get_web3_connection_events_shape env.connAttempts 3 _ hm with ⟨i, h3⟩ | h3 <;>
          simp at h3
      rcases hm with hm | hm
      · rcases List.mem_cons.mp hm with h3 | h3
        · simp at h3
        · simp at h3
      · exact ((walletLoop_mem_derive env cfg td runeq rungt runlt
          wallets 1 idx).mp hm).2.2

/-- An environment with a live endpoint, resolved metadata, one failing and
one succeeding derivation. -/
def envMixed : ChainEnv where
  connAttempts := fun _ => .connected
  tokenSymbol := some ['T']
  tokenDecimals := some 6
  deriveAddress := fun pk => if pk = ['b'] then none else some ('a' :: pk)
  nativeBalance := fun _ => none
  tokenBalance := fun _ => none
  pacingDelay := fun _ => 2

/-- Witness for C5: after the first wallet's derivation failure, the second
filter-matching wallet is still processed. -/
theorem c5_failure_semantics_witness :
    RunEvent.deriveAddr 2 ∈
      (generate_network_balance envMixed (some ⟨18⟩) [['b'], ['k']] [] 0 0).2 :=
  (((c5_failure_semantics envMixed ⟨18⟩ [['b'], ['k']] [] 0 0 (by decide)).2.2
      ['T'] 6 (by decide) rfl rfl).2 2 (by decide) (by decide)).mp (by decide)

/-! ### C9: the summary count -/

/-- C9.  The count reported by a completed run's summary is exactly the
number of 1-based record indices that pass the selection filter, independent
of any per-wallet derivation or balance failures. -/
theorem c9_summary_count (env : ChainEnv) (cfg : NetworkConfig)
    (wallets : List (List Char)) (runeq : List ℤ) (rungt runlt : ℤ)
    (sym : List Char) (td : ℕ)
    (hne : wallets ≠ [])
    (hconn : (get_web3_connection env.connAttempts 3).1 = some ())
    (hsym : env.tokenSymbol = some sym)
    (hdec : env.tokenDecimals = some td) :
    (generate_network_balance env (some cfg) wallets runeq rungt runlt).1 =
      RunOutcome.done ((List.range' 1 wallets.length).countP
        (fun idx => is_id_valid (idx : ℤ) runeq rungt runlt)) := by
  rw [generate_success_eq env cfg wallets runeq rungt runlt sym td hne hconn hsym hdec]
  simp [walletLoop_count]

/-- Witness for C9: three records, allow-set `{2}`, count 1; the counted
record's balance queries fail and it is still counted. -/
theorem c9_summary_count_witness :
    (generate_network_balance envMixed (some ⟨18⟩) [['b'], ['k'], ['z']] [2] 0 0).1 =
      RunOutcome.done ((List.range' 1 3).countP
        (fun idx => is_id_valid (idx : ℤ) [2] 0 0)) :=
  c9_summary_count envMixed ⟨18⟩ [['b'], ['k'], ['z']] [2] 0 0 ['T'] 6
    (by decide) (by decide) rfl rfl

/-! ### C8: the pacing sleep -/

/-- Is an event the pacing sleep of wallet `idx`? -/
def isPaceFor (idx : ℕ) : RunEvent → Bool
  | .paceSleep j _ => j == idx
  | _ => false

/-- Pacing count of one step: 1 exactly when the record matches the filter
and its address derivation succeeds. -/
theorem walletStep_countP_pace (env : ChainEnv) (cfg : NetworkConfig) (td : ℕ)
    (runeq : List ℤ) (rungt runlt : ℤ) (i : ℕ) (w : List Char) (idx : ℕ) :
    ((walletStep env cfg td runeq rungt runlt i w).2.countP (isPaceFor idx)) =
      if idx = i ∧ is_id_valid (i : ℤ) runeq rungt runlt = true ∧
          (env.deriveAddress (walletKey w)).isSome = true
      then 1 else 0 := by
  by_cases h : is_id_valid (i : ℤ) runeq rungt runlt = true
  · cases hd : env.deriveAddress (walletKey w) with
    | none =>
      rw [walletStep_pass_none env cfg td runeq rungt runlt i w h hd]
      simp [isPaceFor, List.countP_cons]
    | some a =>
      rw [walletStep_pass_some env cfg td runeq rungt runlt i w a h hd]
      rw [List.countP_append, List.countP_append]
      have h0 : (walletTryBlock env cfg td i a).countP (isPaceFor idx) = 0 := by
        rw [List.countP_eq_zero]
        intro e he
        rcases walletTryBlock_shape env cfg td i a e he with h3 | h3 | h3 | h3 <;>
          subst h3 <;> simp [isPaceFor]
      by_cases hij : idx = i
      · subst hij
        simp [isPaceFor, h0, h, List.countP_cons]
      · simp [isPaceFor, h0, hij, List.countP_cons, Ne.symm hij]
  · rw [walletStep_skip env cfg td runeq rungt runlt i w (by simpa using h)]
    simp [h]

/-- No pacing event for an index below the loop's current index. -/
theorem walletLoop_countP_pace_lt (env : ChainEnv) (cfg : NetworkConfig) (td : ℕ)
    (runeq : List ℤ) (rungt runlt : ℤ) :
    ∀ (ws : List (List Char)) (i idx : ℕ), idx < i →
      ((walletLoop env cfg td runeq rungt runlt ws i).2.countP (isPaceFor idx)) = 0 := by
  intro ws
  induction ws with
  | nil => intro i idx _; simp [walletLoop]
  | cons w ws ih =>
    intro i idx hlt
    simp only [walletLoop, List.countP_append]
    rw [walletStep_countP_pace, ih (i + 1) idx (by omega), if_neg (by omega)]

/-- Pacing count of the loop for the record at offset `j`. -/
theorem walletLoop_countP_pace (env : ChainEnv) (cfg : NetworkConfig) (td : ℕ)
    (runeq : List ℤ) (rungt runlt : ℤ) :
    ∀ (ws : List (List Char)) (i j : ℕ), j < ws.length →
      ((walletLoop env cfg td runeq rungt runlt ws i).2.countP (isPaceFor (i + j))) =
        if is_id_valid ((i + j : ℕ) : ℤ) runeq rungt runlt = true ∧
            (env.deriveAddress (walletKey (ws.getD j []))).isSome = true
        then 1 else 0 := by
  intro ws
  induction ws with
  | nil => intro i j hj; simp at hj
  | cons w ws ih =>
    intro i j hj
    simp only [walletLoop, List.countP_append]
    cases j with
    | zero =>
      rw [walletStep_countP_pace,
        walletLoop_countP_pace_lt env cfg td runeq rungt runlt ws (i + 1) (i + 0) (by omega)]
      simp
    | succ j' =>
      rw [walletStep_countP_pace, if_neg (by omega)]
      have := ih (i + 1) j' (by simpa using hj)
      have harith : i + 1 + j' = i + (j' + 1) := by omega
      rw [harith] at this
      simpa using this

/-- A pacing event of one step carries that wallet's random draw. -/
theorem walletStep_mem_pace (env : ChainEnv) (cfg : NetworkConfig) (td : ℕ)
    (runeq : List ℤ) (rungt runlt : ℤ) (i : ℕ) (w : List Char) (idx : ℕ) (d : ℚ) :
    RunEvent.paceSleep idx d ∈ (walletStep env cfg td runeq rungt runlt i w).2 →
      idx = i ∧ d = env.pacingDelay i := by
  intro hm
  by_cases h : is_id_valid (i : ℤ) runeq rungt runlt = true
  · cases hd : env.deriveAddress (walletKey w) with
    | none =>
      rw [walletStep_pass_none env cfg td runeq rungt runlt i w h hd] at hm
      simp at hm
    | some a =>
      rw [walletStep_pass_some env cfg td runeq rungt runlt i w a h hd] at hm
      simp only [List.append_assoc, List.mem_append, List.mem_singleton] at hm
      rcases hm with hm | hm | hm
      · simp at hm
      · rcases walletTryBlock_shape env cfg td i a _ hm with h3 | h3 | h3 | h3 <;>
          simp at h3
      · simpa using hm
  · rw [walletStep_skip env cfg td runeq rungt runlt i w (by simpa using h)] at hm
    simp at hm

/-- A pacing event of the loop carries that wallet's random draw. -/
theorem walletLoop_mem_pace (env : ChainEnv) (cfg : NetworkConfig) (td : ℕ)
    (runeq : List ℤ) (rungt runlt : ℤ) :
    ∀ (ws : List (List Char)) (i idx : ℕ) (d : ℚ),
      RunEvent.paceSleep idx d ∈ (walletLoop env cfg td runeq rungt runlt ws i).2 →
        d = env.pacingDelay idx := by
  intro ws
  induction ws with
  | nil => intro i idx d hm; simp [walletLoop] at hm
  | cons w ws ih =>
    intro i idx d hm
    simp only [walletLoop, List.mem_append] at hm
    rcases hm with hm | hm
    · rcases walletStep_mem_pace env cfg td runeq rungt runlt i w idx d hm with ⟨rfl, rfl⟩
      rfl
    · exact ih (i + 1) idx d hm

/-- A matching record with a successful derivation emits its pacing sleep. -/
theorem walletStep_pace_mem_intro (env : ChainEnv) (cfg : NetworkConfig) (td : ℕ)
    (runeq : List ℤ) (rungt runlt : ℤ) (i : ℕ) (w : List Char)
    (h : is_id_valid (i : ℤ) runeq rungt runlt = true)
    (hd : (env.deriveAddress (walletKey w)).isSome = true) :
    RunEvent.paceSleep i (env.pacingDelay i) ∈
      (walletStep env cfg td runeq rungt runlt i w).2 := by
  rcases Option.isSome_iff_exists.mp hd with ⟨a, ha⟩
  rw [walletStep_pass_some env cfg td runeq rungt runlt i w a h ha]
  simp

/-- The pacing sleep of an earlier matching record occurs before a later
matching record's derivation step. -/
theorem walletLoop_pace_before_derive (env : ChainEnv) (cfg : NetworkConfig) (td : ℕ)
    (runeq : List ℤ) (rungt runlt : ℤ) :
    ∀ (ws : List (List Char)) (i j k : ℕ), j < k → k < ws.length →
      is_id_valid ((i + j : ℕ) : ℤ) runeq rungt runlt = true →
      (env.deriveAddress (walletKey (ws.getD j []))).isSome = true →
      is_id_valid ((i + k : ℕ) : ℤ) runeq rungt runlt = true →
      [RunEvent.paceSleep (i + j) (env.pacingDelay (i + j)),
        RunEvent.deriveAddr (i + k)].Sublist
        (walletLoop env cfg td runeq rungt runlt ws i).2 := by
  intro ws
  induction ws with
  | nil => intro i j k hjk hk; simp at hk
  | cons w ws ih =>
    intro i j k hjk hk hpj hdj hpk
    show List.Sublist _ ((walletStep env cfg td runeq rungt runlt i w).2 ++
      (walletLoop env cfg td runeq rungt runlt ws (i + 1)).2)
    cases j with
    | zero =>
      have hpace : RunEvent.paceSleep (i + 0) (env.pacingDelay (i + 0)) ∈
          (walletStep env cfg td runeq rungt runlt i w).2 := by
        simpa using walletStep_pace_mem_intro env cfg td runeq rungt runlt i w
          (by simpa using hpj) (by simpa using hdj)
      have hder : RunEvent.deriveAddr (i + k) ∈
          (walletLoop env cfg td runeq rungt runlt ws (i + 1)).2 :=
        (walletLoop_mem_derive env cfg td runeq rungt runlt ws (i + 1) (i + k)).mpr
          ⟨by omega, by simp at hk; omega, hpk⟩
      exact List.Sublist.append (List.singleton_sublist.mpr hpace)
        (List.singleton_sublist.mpr hder)
    | succ j' =>
      cases k with
      | zero => omega
      | succ k' =>
        have harena : ∀ m : ℕ, i + (m + 1) = (i + 1) + m := by omega
        have := ih (i + 1) j' k' (by omega) (by simpa using hk)
          (by rw [harena j'] at hpj; exact hpj)
          (by simpa using hdj)
          (by rw [harena k'] at hpk; exact hpk)
        rw [harena j', harena k']
        exact this.trans (List.sublist_append_right _ _)

/-- C8 counterexample.  A run with a single record that passes the filter but
whose address derivation fails performs no pacing sleep at all, although the
claim requires one sleep for every filter-matching record. -/
theorem c8_counterexample :
    generate_network_balance envMixed (some ⟨18⟩) [['b']] [] 0 0 =
      (.done 1, [.connTry 0, .symbolCall, .decimalsCall, .deriveAddr 1,
        .logWalletError 1])
    ∧ is_id_valid 1 [] 0 0 = true
    ∧ ((generate_network_balance envMixed (some ⟨18⟩) [['b']] [] 0 0).2.countP
        (isPaceFor 1)) = 0 := by
  exact ⟨by decide, by decide, by decide⟩

/-- C8 amended.  In a completed run, a pacing sleep with that wallet's random
draw occurs exactly once per filter-matching record whose address derivation
succeeds (balance-query failures included, the last record included); a
filter-matching record whose derivation fails is skipped without the sleep;
each sleep occurs before any later matching record is considered; and when
every random draw lies in [1, 3], so does every sleep duration. -/
theorem c8_pacing_sleeps (env : ChainEnv) (cfg : NetworkConfig)
    (wallets : List (List Char)) (runeq : List ℤ) (rungt runlt : ℤ)
    (sym : List Char) (td : ℕ)
    (hne : wallets ≠ [])
    (hconn : (get_web3_connection env.connAttempts 3).1 = some ())
    (hsym : env.tokenSymbol = some sym)
    (hdec : env.tokenDecimals = some td) :
    (∀ j, j < wallets.length →
      ((generate_network_balance env (some cfg) wallets runeq rungt runlt).2.countP
          (isPaceFor (1 + j)) =
        if is_id_valid ((1 + j : ℕ) : ℤ) runeq rungt runlt = true ∧
            (env.deriveAddress (walletKey (wallets.getD j []))).isSome = true
        then 1 else 0))
    ∧ (∀ idx (d : ℚ), RunEvent.paceSleep idx d ∈
        (generate_network_balance env (some cfg) wallets runeq rungt runlt).2 →
        d = env.pacingDelay idx)
    ∧ (∀ j k, j < k → k < wallets.length →
        is_id_valid ((1 + j : ℕ) : ℤ) runeq rungt runlt = true →
        (env.deriveAddress (walletKey (wallets.getD j []))).isSome = true →
        is_id_valid ((1 + k : ℕ) : ℤ) runeq rungt runlt = true →
        [RunEvent.paceSleep (1 + j) (env.pacingDelay (1 + j)),
          RunEvent.deriveAddr (1 + k)].Sublist
          (generate_network_balance env (some cfg) wallets runeq rungt runlt).2)
    ∧ ((∀ n, 1 ≤ env.pacingDelay n ∧ env.pacingDelay n ≤ 3) →
        ∀ idx (d : ℚ), RunEvent.paceSleep idx d ∈
          (generate_network_balance env (some cfg) wallets runeq rungt runlt).2 →
          1 ≤ d ∧ d ≤ 3) := by
  rw [generate_success_eq env cfg wallets runeq rungt runlt sym td hne hconn hsym hdec]
  have connPace : ∀ idx,
      ((get_web3_connection env.connAttempts 3).2.countP (isPaceFor idx)) = 0 := by
    intro idx
    rw [List.countP_eq_zero]
    intro e he
    rcases get_web3_connection_events_shape env.connAttempts 3 e he with ⟨i, rfl⟩ | rfl <;>
      simp [isPaceFor]
  have connNoPace : ∀ idx (d : ℚ),
      RunEvent.paceSleep idx d ∉ (get_web3_connection env.connAttempts 3).2 := by
    intro idx d hm
    rcases get_web3_connection_events_shape env.connAttempts 3 _ hm with ⟨i, h3⟩ | h3 <;>
      simp at h3
  have memPace : ∀ idx (d : ℚ),
      RunEvent.paceSleep idx d ∈
        ((get_web3_connection env.connAttempts 3).2 ++
          [RunEvent.symbolCall, RunEvent.decimalsCall] ++
          (walletLoop env cfg td runeq rungt runlt wallets 1).2) →
      d = env.pacingDelay idx := by
    intro idx d hm
    simp only [List.append_assoc, List.mem_append] at hm
    rcases hm with hm | hm | hm
    · exact absurd hm (connNoPace idx d)
    · simp at hm
    · exact walletLoop_mem_pace env cfg td runeq rungt runlt wallets 1 idx d hm
  refine ⟨?_, ?_, ?_, ?_⟩
  · intro j hj
    simp only [List.countP_append, connPace, List.countP_cons]
    rw [walletLoop_countP_pace env cfg td runeq rungt runlt wallets 1 j hj]
    simp [isPaceFor]
  · exact memPace
  · intro j k hjk hk hpj hdj hpk
    have := walletLoop_pace_before_derive env cfg td runeq rungt runlt wallets 1 j k
      hjk hk hpj hdj hpk
    exact this.trans (List.sublist_append_right _ _)
  · intro hbounds idx d hm
    rcases memPace idx d hm with rfl
    exact hbounds idx

/-- Witness for C8's amended claim: the first record passes and derives, so
its pacing count is given by the theorem. -/
theorem c8_pacing_sleeps_witness :
    ((generate_network_balance envMixed (some ⟨18⟩) [['k'], ['b'], ['z']] [] 0 0).2.countP
        (isPaceFor (1 + 0)) =
      if is_id_valid ((1 + 0 : ℕ) : ℤ) [] 0 0 = true ∧
          (envMixed.deriveAddress (walletKey ([['k'], ['b'], ['z']].getD 0 []))).isSome = true
      then 1 else 0) :=
  (c8_pacing_sleeps envMixed ⟨18⟩ [['k'], ['b'], ['z']] [] 0 0 ['T'] 6
    (by decide) (by decide) rfl rfl).1 0 (by decide)

/-! ### C1: the near-zero marker -/

/-- C1 counterexample.  `format_token_amount(1, 18)` does not return the
near-zero marker: at 18 fractional digits the quotient renders with a final
`1`.  And when the stripped rendering is textually `"0"` with a nonzero raw
amount (raw 1 at 330 decimals, where the quotient underflows to the double
`0.0`), the marker is still not returned: the plain `"0"` is. -/
theorem c1_counterexample :
    format_token_amount 1 18 ≠ some (markerChars 18)
    ∧ format_token_amount 1 330 = some ['0']
    ∧ some (['0'] : List Char) ≠ some (markerChars 330) := by
  exact ⟨by decide, by decide, by decide⟩

/-- C1 amended.  `format_token_amount(1, 18)` returns
`"0.000000000000000001"` (17 zeros then a final 1), not the marker, since the
quotient does not round to zero at 18 fractional digits; and a raw amount
whose quotient underflows to the double zero (such as `(1, 330)`) renders as
plain `"0"` even though the raw amount is nonzero, because the marker branch
additionally requires the floating-point quotient itself to be nonzero. -/
theorem c1_amended :
    format_token_amount 1 18 = some "0.000000000000000001".toList
    ∧ format_token_amount 1 330 = some ['0'] := by
  exact ⟨by decide, by decide⟩

/-! ### Character sets of the formatter output -/

/-- Every character the formatter can emit. -/
def allowedChars : List Char := digitList ++ ['.', '-', '<', ' ']

/-- `digitChar` always produces one of the ten digit characters. -/
theorem digitChar_mem (d : ℕ) : digitChar d ∈ digitList := by
  by_cases h : d < 10
  · interval_cases d <;> decide
  · have hlen : digitList.length ≤ d := by simp [digitList]; omega
    rw [digitChar, List.getD_eq_default _ _ hlen]
    decide

/-- Decimal digit strings stay inside the digit alphabet. -/
theorem natDigitsStr_chars (x : ℕ) : ∀ c ∈ natDigitsStr x, c ∈ allowedChars := by
  intro c hc
  rcases List.mem_map.mp hc with ⟨d, _, rfl⟩
  exact List.mem_append.mpr (Or.inl (digitChar_mem d))

/-- Characters surviving `rstrip('0')` come from the input. -/
theorem mem_rstripZeros (l : List Char) (c : Char) (h : c ∈ rstripZeros l) : c ∈ l := by
  unfold rstripZeros at h
  rw [List.mem_reverse] at h
  exact List.mem_reverse.mp ((List.dropWhile_sublist _).subset h)

/-- Characters surviving `rstrip('.')` come from the input. -/
theorem mem_rstripDot (l : List Char) (c : Char) (h : c ∈ rstripDot l) : c ∈ l := by
  unfold rstripDot at h
  rw [List.mem_reverse] at h
  exact List.mem_reverse.mp ((List.dropWhile_sublist _).subset h)

/-- Fixed-point rendering emits only digits, the dot and the sign. -/
theorem formatFixed_chars (v : ℚ) (nd : ℕ) : ∀ c ∈ formatFixed v nd, c ∈ allowedChars := by
  intro c hc
  simp only [formatFixed] at hc
  split at hc
  · rcases List.mem_append.mp hc with h1 | h1
    · split at h1
      · rw [List.mem_singleton.mp h1]; decide
      · simp at h1
    · exact natDigitsStr_chars _ c h1
  · simp only [List.append_assoc, List.mem_append] at hc
    rcases hc with h1 | h1 | h1 | h1 | h1
    · split at h1
      · rw [List.mem_singleton.mp h1]; decide
      · simp at h1
    · exact natDigitsStr_chars _ c h1
    · rw [List.mem_singleton.mp h1]; decide
    · rw [List.eq_of_mem_replicate h1]; decide
    · exact natDigitsStr_chars _ c h1

/-- The near-zero marker emits only characters of the allowed set. -/
theorem markerChars_chars (d : ℕ) : ∀ c ∈ markerChars d, c ∈ allowedChars := by
  intro c hc
  unfold markerChars at hc
  simp only [List.append_assoc, List.mem_append] at hc
  rcases hc with h1 | h1 | h1
  · simp only [List.mem_cons, List.not_mem_nil, or_false] at h1
    rcases h1 with rfl | rfl | rfl | rfl <;> decide
  · rw [List.eq_of_mem_replicate h1]; decide
  · rw [List.mem_singleton.mp h1]; decide

/-- Every string the formatter returns stays inside the allowed character
set — in particular it never contains an exponent marker. -/
theorem format_token_amount_chars (a : ℤ) (d : ℕ) (s : List Char)
    (h : format_token_amount a d = some s) : ∀ c ∈ s, c ∈ allowedChars := by
  intro c hc
  unfold format_token_amount at h
  rcases hf : floatRound ((a : ℚ) / tenPow d) with _ | result
  · rw [hf] at h; exact absurd h (by simp)
  · rw [hf] at h
    have h' : (match parseFloat (rstripDot (rstripZeros (formatFixed result d))) with
        | none => none
        | some v => some (if pyFloatIsZero v = true ∧ result ≠ 0 then markerChars d
            else rstripDot (rstripZeros (formatFixed result d)))) = some s := h
    rcases hp : parseFloat (rstripDot (rstripZeros (formatFixed result d))) with _ | v
    · rw [hp] at h'; exact absurd h' (by simp)
    · rw [hp] at h'
      simp only [Option.some_inj] at h'
      subst h'
      split at hc
      · exact markerChars_chars d c hc
      · exact formatFixed_chars result d c
          (mem_rstripZeros _ c (mem_rstripDot _ c hc))

/-! ### C6: the formatting pipeline and scientific notation -/

/-- C6.  `format_token_amount(1500000000000000000, 18)` is `"1.5"` (the
quotient is rendered with 18 fractional digits, trailing zeros and the
trailing dot are stripped), and no string the formatter returns ever
contains a scientific-notation exponent marker. -/
theorem c6_format_pipeline :
    format_token_amount 1500000000000000000 18 = some ['1', '.', '5']
    ∧ ∀ (a : ℤ) (d : ℕ) (s : List Char), format_token_amount a d = some s →
        'e' ∉ s ∧ 'E' ∉ s := by
  refine ⟨by decide, ?_⟩
  intro a d s h
  constructor
  · intro hc
    exact absurd (format_token_amount_chars a d s h 'e' hc) (by decide)
  · intro hc
    exact absurd (format_token_amount_chars a d s h 'E' hc) (by decide)

/-- Witness for C6's universally quantified part at a concrete input. -/
theorem c6_format_pipeline_witness :
    format_token_amount 1 2 = some ['0', '.', '0', '1']
    ∧ 'e' ∉ (['0', '.', '0', '1'] : List Char)
    ∧ 'E' ∉ (['0', '.', '0', '1'] : List Char) :=
  ⟨by decide,
   (c6_format_pipeline.2 1 2 ['0', '.', '0', '1'] (by decide)).1,
   (c6_format_pipeline.2 1 2 ['0', '.', '0', '1'] (by decide)).2⟩

/-! ### Exactness of the binary64 rounding on small integers -/

/-- The fuel-indexed bit length is bounded by any exponent dominating `n`. -/
theorem natBitsAux_le (f : ℕ) : ∀ (n b : ℕ), n < 2 ^ b → natBitsAux f n ≤ b := by
  induction f with
  | zero => intro n b _; simp [natBitsAux]
  | succ f ih =>
    intro n b hb
    by_cases hn : n = 0
    · simp [natBitsAux, hn]
    · have hb1 : 1 ≤ b := by
        rcases Nat.eq_zero_or_pos b with rfl | h
        · simp at hb; omega
        · exact h
      rw [natBitsAux, if_neg hn]
      have hsplit : 2 ^ b = 2 * 2 ^ (b - 1) := by
        have hb' : b - 1 + 1 = b := by omega
        rw [← hb', pow_succ']
        simp
      have h2 : n / 2 < 2 ^ (b - 1) := by omega
      have := ih (n / 2) (b - 1) h2
      omega

/-- `natBits n ≤ b` whenever `n < 2^b`. -/
theorem natBits_le (n b : ℕ) (h : n < 2 ^ b) : natBits n ≤ b := natBitsAux_le n n b h

/-- Rounding an exact integer quotient is the identity. -/
theorem roundHalfEvenNat_one (p : ℕ) : roundHalfEvenNat p 1 = p := by
  unfold roundHalfEvenNat
  have h1 : p % 1 = 0 := Nat.mod_one p
  rw [h1]
  norm_num

/-- Rounding an integer-valued rational is the identity. -/
theorem roundHalfEvenQ_intCast (k : ℤ) : roundHalfEvenQ (k : ℚ) = k := by
  unfold roundHalfEvenQ
  rw [Int.floor_intCast]
  rw [if_pos (by norm_num)]

/-- The positive binary64 rounding is exact on integers below the precision
and range limits. -/
theorem floatRoundPos_exact (p : ℕ) (hk : ratBits p 1 ≤ 53)
    (hbig : (p : ℚ) < qpow2 1024) :
    floatRoundPos p 1 = some (p : ℚ) := by
  simp only [floatRoundPos]
  have he0 : max (ratBits p 1 - 53) (-1074) ≤ 0 := by omega
  have hval : ((if 0 ≤ max (ratBits p 1 - 53) (-1074) then
      roundHalfEvenNat p (1 * 2 ^ (max (ratBits p 1 - 53) (-1074)).toNat)
      else roundHalfEvenNat (p * 2 ^ (-max (ratBits p 1 - 53) (-1074)).toNat) 1 : ℕ) : ℚ) *
        qpow2 (max (ratBits p 1 - 53) (-1074)) = (p : ℚ) := by
    by_cases hez : 0 ≤ max (ratBits p 1 - 53) (-1074)
    · have heq : max (ratBits p 1 - 53) (-1074) = 0 := le_antisymm he0 hez
      rw [if_pos hez, heq]
      norm_num [qpow2, roundHalfEvenNat_one]
    · rw [if_neg hez, roundHalfEvenNat_one]
      rw [qpow2, if_neg hez]
      push_cast
      have hne : ((2 : ℚ) ^ (-max (ratBits p 1 - 53) (-1074)).toNat) ≠ 0 := by positivity
      field_simp
  rw [hval, if_neg (not_le.mpr hbig)]

/-- The binary64 rounding of a positive integer below `2^53` is exact. -/
theorem floatRound_natCast (m : ℕ) (h1 : 0 < m) (h2 : m < 2 ^ 53) :
    floatRound (m : ℚ) = some (m : ℚ) := by
  have hm0 : ((m : ℚ)) ≠ 0 := Nat.cast_ne_zero.mpr (by omega)
  have hmpos : (0 : ℚ) < (m : ℚ) := by exact_mod_cast h1
  have hnum : ((m : ℚ)).num.natAbs = m := by simp
  have hden : ((m : ℚ)).den = 1 := Rat.den_natCast m
  rw [floatRound, if_neg hm0, if_pos hmpos, hnum, hden]
  have hb : natBits m ≤ 53 := natBits_le m 53 h2
  have hk : ratBits m 1 ≤ 53 := by
    have h1bit : natBits (1 : ℕ) = 1 := by decide
    simp only [ratBits, h1bit]
    split <;> push_cast <;> omega
  have hbig : (m : ℚ) < qpow2 1024 := by
    rw [qpow2, if_pos (by norm_num)]
    have : m < 2 ^ 1024 := lt_of_lt_of_le h2 (Nat.pow_le_pow_right (by omega) (by omega))
    exact_mod_cast this
  exact floatRoundPos_exact m hk hbig

/-- Fixed-point rendering of an integer with zero fractional digits is its
plain digit string. -/
theorem formatFixed_natCast_zero (m : ℕ) :
    formatFixed (m : ℚ) 0 = natDigitsStr m := by
  have hround : roundHalfEvenQ ((m : ℚ) * tenPow 0) = (m : ℤ) := by
    have h1 : ((m : ℚ)) * tenPow 0 = (((m : ℤ)) : ℚ) := by simp [tenPow]
    rw [h1, roundHalfEvenQ_intCast]
  have hs1 : ¬((m : ℤ) < 0 ∨ ((m : ℤ) = 0 ∧ (m : ℚ) < 0)) := by
    rintro (hlt | ⟨_, hlt⟩)
    · omega
    · exact absurd hlt (not_lt.mpr (by positivity))
  simp [formatFixed, hround, hs1]

/-! ### Decimal digit string facts -/

/-- All digit values produced are below 10. -/
theorem natDigitsAux_lt (f : ℕ) : ∀ n, n ≤ f → ∀ d ∈ natDigitsAux f n, d < 10 := by
  induction f with
  | zero =>
    intro n hn d hd
    interval_cases n
    simp [natDigitsAux] at hd
    omega
  | succ f ih =>
    intro n hn d hd
    rw [natDigitsAux] at hd
    split at hd
    next hlt => simp at hd; omega
    next hlt =>
      rcases List.mem_append.mp hd with h1 | h1
      · exact ih (n / 10) (by omega) d h1
      · simp at h1; omega

/-- The leading digit of a positive number is nonzero. -/
theorem natDigitsAux_head (f : ℕ) : ∀ n, 1 ≤ n → n ≤ f →
    ∃ d t, natDigitsAux f n = d :: t ∧ 1 ≤ d ∧ d < 10 := by
  induction f with
  | zero => intro n h1 h2; omega
  | succ f ih =>
    intro n h1 h2
    rw [natDigitsAux]
    split
    next hlt => exact ⟨n, [], rfl, h1, hlt⟩
    next hlt =>
      obtain ⟨d, t, heq, hd1, hd2⟩ := ih (n / 10) (by omega) (by omega)
      exact ⟨d, t ++ [n % 10], by rw [heq]; rfl, hd1, hd2⟩

/-- The last digit is `n % 10`. -/
theorem natDigitsAux_last (f : ℕ) : ∀ n, n ≤ f →
    (natDigitsAux f n).getLast? = some (n % 10) := by
  induction f with
  | zero =>
    intro n hn
    interval_cases n
    decide
  | succ f ih =>
    intro n hn
    rw [natDigitsAux]
    split
    next hlt => simp [Nat.mod_eq_of_lt hlt]
    next hlt => rw [List.getLast?_concat]

/-- Digit characters are decimal digits. -/
theorem digitList_isDigit : ∀ c ∈ digitList, c.isDigit = true := by decide

/-- Digit characters are not the minus sign. -/
theorem digitList_ne_minus : ∀ c ∈ digitList, c ≠ '-' := by decide

/-- `digitChar` of a digit value is a decimal digit character. -/
theorem digitChar_isDigit (d : ℕ) : (digitChar d).isDigit = true :=
  digitList_isDigit _ (digitChar_mem d)

/-- `charToDigit` inverts `digitChar` on digit values. -/
theorem charToDigit_digitChar (d : ℕ) (h : d < 10) : charToDigit (digitChar d) = d := by
  interval_cases d <;> decide

/-- A nonzero digit value gives a character other than `'0'`. -/
theorem digitChar_ne_zero (d : ℕ) (h1 : 1 ≤ d) (h9 : d < 10) : digitChar d ≠ '0' := by
  interval_cases d <;> decide

/-! ### Right-stripping facts -/

/-- `dropWhile` over an appended element the predicate rejects. -/
theorem dropWhile_append_last (p : Char → Bool) (c : Char) (hc : p c = false) :
    ∀ xs : List Char, (xs ++ [c]).dropWhile p = xs.dropWhile p ++ [c] := by
  intro xs
  induction xs with
  | nil => simp [List.dropWhile_cons, hc]
  | cons x xs ih =>
    simp only [List.cons_append, List.dropWhile_cons]
    split
    · exact ih
    · simp

/-- `rstrip('0')` keeps a leading non-`'0'` character. -/
theorem rstripZeros_cons (c : Char) (t : List Char) (hc : c ≠ '0') :
    rstripZeros (c :: t) = c :: rstripZeros t := by
  unfold rstripZeros
  rw [List.reverse_cons, dropWhile_append_last _ c (by simp [hc]), List.reverse_append]
  simp

/-- `rstrip('.')` of a dot-free string is the identity. -/
theorem rstripDot_no_dot (l : List Char) (h : ∀ c ∈ l, c ≠ '.') : rstripDot l = l := by
  unfold rstripDot
  have hdw : l.reverse.dropWhile (fun c => c == '.') = l.reverse := by
    rcases hrev : l.reverse with _ | ⟨x, xs⟩
    · rfl
    · have hx : x ∈ l := by rw [← List.mem_reverse, hrev]; simp
      rw [List.dropWhile_cons, if_neg (by simp [h x hx])]
  rw [hdw, List.reverse_reverse]

/-- `rstrip('0')` strictly shortens a string ending in `'0'`. -/
theorem rstripZeros_length_lt (l : List Char) (h : l.getLast? = some '0') :
    (rstripZeros l).length < l.length := by
  unfold rstripZeros
  rcases hrev : l.reverse with _ | ⟨x, xs⟩
  · rw [← List.head?_reverse, hrev] at h; simp at h
  · have hx : x = '0' := by
      rw [← List.head?_reverse, hrev] at h
      simpa using h
    have h2 : l.length = xs.length + 1 := by
      have hc := congrArg List.length hrev
      simpa using hc
    rw [List.dropWhile_cons, if_pos (by simp [hx])]
    have h1 : (xs.dropWhile (fun c => c == '0')).length ≤ xs.length :=
      (List.dropWhile_sublist _).length_le
    simp only [List.length_reverse]
    omega

/-! ### Parsing digit strings -/

/-- Folding the digit accumulator never decreases it. -/
theorem digitsVal_foldl_le (l : List Char) :
    ∀ a : ℕ, a ≤ l.foldl (fun x c => x * 10 + charToDigit c) a := by
  induction l with
  | nil => intro a; simp
  | cons c t ih =>
    intro a
    have h1 := ih (a * 10 + charToDigit c)
    simp only [List.foldl_cons]
    omega

/-- The value of a digit string dominates its leading digit. -/
theorem digitsVal_head_le (c : Char) (t : List Char) :
    charToDigit c ≤ digitsVal (c :: t) := by
  unfold digitsVal
  simp only [List.foldl_cons]
  have := digitsVal_foldl_le t (0 * 10 + charToDigit c)
  simpa using this

/-- `float()` on a nonempty all-digit string parses its decimal value. -/
theorem parseUnsigned_all_digits (l : List Char) (hne : l ≠ [])
    (hd : ∀ c ∈ l, c.isDigit = true) :
    parseUnsigned l = some ((digitsVal l : ℕ) : ℚ) := by
  have ht : l.takeWhile Char.isDigit = l := List.takeWhile_eq_self_iff.mpr hd
  simp only [parseUnsigned, ht, List.drop_length]
  simp [List.isEmpty_iff, hne]

/-! ### C10: `decimals = 0` strips the integer rendering -/

/-- C10.  For a positive multiple of 10 below `2^53`, `format(m, 0)` returns
the decimal digits of `m` with all trailing zeros removed — the trailing-zero
strip applies to the integer rendering itself, so the result is not the
decimal representation of `m`. -/
theorem c10_decimals_zero_strip (m : ℕ) (h0 : 0 < m) (h10 : m % 10 = 0)
    (h53 : m < 2 ^ 53) :
    format_token_amount (m : ℤ) 0 = some (rstripZeros (natDigitsStr m))
    ∧ rstripZeros (natDigitsStr m) ≠ natDigitsStr m := by
  have hcast : (((m : ℤ) : ℚ)) / tenPow 0 = (m : ℚ) := by
    simp [tenPow]
  have hfr : floatRound ((((m : ℤ) : ℚ)) / tenPow 0) = some ((m : ℚ)) := by
    rw [hcast]; exact floatRound_natCast m h0 h53
  obtain ⟨d0, tv, hvals, hd1, hd9⟩ := natDigitsAux_head m m h0 (le_refl m)
  have hstr : natDigitsStr m = digitChar d0 :: tv.map digitChar := by
    rw [natDigitsStr, natDigitsVals, hvals]; rfl
  have hhead0 : digitChar d0 ≠ '0' := digitChar_ne_zero d0 hd1 hd9
  have hstrip : rstripZeros (natDigitsStr m) =
      digitChar d0 :: rstripZeros (tv.map digitChar) := by
    rw [hstr, rstripZeros_cons _ _ hhead0]
  have hdigits : ∀ c ∈ rstripZeros (natDigitsStr m), c.isDigit = true := by
    intro c hc
    have hmem := mem_rstripZeros _ c hc
    rw [natDigitsStr] at hmem
    rcases List.mem_map.mp hmem with ⟨d, _, rfl⟩
    exact digitChar_isDigit d
  have hne : rstripZeros (natDigitsStr m) ≠ [] := by rw [hstrip]; simp
  have hnodot : rstripDot (rstripZeros (natDigitsStr m)) =
      rstripZeros (natDigitsStr m) := by
    apply rstripDot_no_dot
    intro c hc
    intro hdot
    have := hdigits c hc
    rw [hdot] at this
    exact absurd this (by decide)
  have hrender : formatFixed ((m : ℚ)) 0 = natDigitsStr m := formatFixed_natCast_zero m
  have hparse : parseFloat (rstripZeros (natDigitsStr m)) =
      some ((digitsVal (rstripZeros (natDigitsStr m)) : ℕ) : ℚ) := by
    rw [hstrip]
    show (if digitChar d0 = '-' then
        (parseUnsigned (rstripZeros (tv.map digitChar))).map (fun q => -q)
      else parseUnsigned (digitChar d0 :: rstripZeros (tv.map digitChar))) = _
    rw [if_neg (digitList_ne_minus _ (digitChar_mem d0)), ← hstrip]
    exact parseUnsigned_all_digits _ hne hdigits
  have hval1 : 1 ≤ digitsVal (rstripZeros (natDigitsStr m)) := by
    rw [hstrip]
    have hle := digitsVal_head_le (digitChar d0) (rstripZeros (tv.map digitChar))
    have hc : charToDigit (digitChar d0) = d0 := charToDigit_digitChar d0 hd9
    omega
  have hguard : pyFloatIsZero ((digitsVal (rstripZeros (natDigitsStr m)) : ℕ) : ℚ) =
      false := by
    unfold pyFloatIsZero
    rw [decide_eq_false_iff_not]
    rintro ⟨_, h2⟩
    have hq : (1 : ℚ) ≤ ((digitsVal (rstripZeros (natDigitsStr m)) : ℕ) : ℚ) := by
      exact_mod_cast hval1
    have hqp : (1 : ℚ) < qpow2 1075 := by
      rw [qpow2, if_pos (by norm_num)]
      have hn : (1 : ℕ) < 2 ^ 1075 := Nat.one_lt_two_pow_iff.mpr (by omega)
      exact_mod_cast hn
    nlinarith
  constructor
  · unfold format_token_amount
    rw [hfr]
    show (match parseFloat (rstripDot (rstripZeros (formatFixed ((m : ℚ)) 0))) with
      | none => none
      | some v => some (if pyFloatIsZero v = true ∧ (m : ℚ) ≠ 0 then markerChars 0
          else rstripDot (rstripZeros (formatFixed ((m : ℚ)) 0)))) =
      some (rstripZeros (natDigitsStr m))
    rw [hrender, hnodot, hparse]
    simp [hguard]
  · have hlast : (natDigitsStr m).getLast? = some '0' := by
      rw [natDigitsStr, List.getLast?_map, natDigitsVals,
        natDigitsAux_last m m (le_refl m), h10]
      rfl
    have hlt := rstripZeros_length_lt (natDigitsStr m) hlast
    intro heq
    rw [heq] at hlt
    omega

/-- Witness for C10 at `m = 100`. -/
theorem c10_decimals_zero_strip_witness :
    format_token_amount ((100 : ℕ) : ℤ) 0 = some (rstripZeros (natDigitsStr 100))
    ∧ rstripZeros (natDigitsStr 100) ≠ natDigitsStr 100 :=
  c10_decimals_zero_strip 100 (by decide) (by decide) (by decide)

end KeyGenerate
